import Mathlib

set_option maxHeartbeats 1000000
set_option maxRecDepth 8000
set_option linter.unnecessarySeqFocus false

namespace CargoAspect

/-!
Shallow embedding of the cargo-aspect weaving engine
(src/make.rs, src/src_mgr.rs, src/main.rs).

Rust strings are modelled as `List Char`, one element per byte of the
original (every operation involved is alphabet-generic, so `Char` serves
as the byte alphabet); `panic!`/`expect` failures are modelled as
`Option`/`Sum` failure values.
-/

/-- `struct Pos` (make.rs): 1-indexed line and column of a byte in a file. -/
structure Pos where
  line : Nat
  col : Nat
deriving DecidableEq, Repr

/-- Strict lexicographic order on `Pos`: line first, then column.  This is
the order relation of the derived `Ord`/`PartialOrd` on `struct Pos`. -/
def Pos.lt (a b : Pos) : Prop :=
  a.line < b.line ∨ (a.line = b.line ∧ a.col < b.col)

instance (a b : Pos) : Decidable (Pos.lt a b) := by
  unfold Pos.lt
  exact inferInstance

theorem Pos.lt_trans {a b c : Pos} (h1 : Pos.lt a b) (h2 : Pos.lt b c) : Pos.lt a c := by
  unfold Pos.lt at *
  omega

theorem Pos.lt_irrefl (a : Pos) : ¬ Pos.lt a a := by
  unfold Pos.lt
  omega

/-- The comparator produced by the derived `Ord` on `struct Pos`:
lexicographic comparison of `line`, then `col`. -/
def Pos.cmp (a b : Pos) : Ordering :=
  (compare a.line b.line).then (compare a.col b.col)

/-- Loop body of `find_index_by_pos` (make.rs lines 222-238): scan the bytes
tracking a running `(line, col)` that starts at `(1, 1)`; return the current
index as soon as the running position equals `pos`; on a newline the line is
incremented and the column reset to 1, otherwise the column is incremented. -/
def find_index_by_pos_go : List Char → Pos → Nat → Nat → Nat → Option Nat
  | [], _, _, _, _ => none
  | c :: rest, pos, line, col, i =>
    if line = pos.line ∧ col = pos.col then some i
    else if c = '\n' then find_index_by_pos_go rest pos (line + 1) 1 (i + 1)
    else find_index_by_pos_go rest pos line (col + 1) (i + 1)

/-- `find_index_by_pos` (make.rs): the final `panic!` ("Line .. and Column ..
is not found") is modelled as `none`. -/
def find_index_by_pos (src : List Char) (pos : Pos) : Option Nat :=
  find_index_by_pos_go src pos 1 1 0

/-- Line number reached after reading the prefix `t` of a file, re-derived by
counting: one plus the number of newline characters in `t`. -/
def prefixLine (t : List Char) : Nat := 1 + t.count '\n'

/-- Column reached after reading the prefix `t` of a file, re-derived by
counting: the number of characters after the last newline of `t`, plus one. -/
def prefixCol (t : List Char) : Nat :=
  (t.reverse.takeWhile (fun c => c != '\n')).length + 1

/-- The `(line, col)` position reached after reading the prefix `t`. -/
def prefixPos (t : List Char) : Pos := ⟨prefixLine t, prefixCol t⟩

theorem prefixLine_nil : prefixLine [] = 1 := rfl

theorem prefixCol_nil : prefixCol [] = 1 := rfl

theorem prefixPos_nil : prefixPos [] = ⟨1, 1⟩ := rfl

theorem prefixLine_snoc (u : List Char) (c : Char) :
    prefixLine (u ++ [c]) = if c = '\n' then prefixLine u + 1 else prefixLine u := by
  by_cases h : c = '\n' <;>
    simp [prefixLine, List.count_append, List.count_cons, h] <;> omega

theorem prefixCol_snoc (u : List Char) (c : Char) :
    prefixCol (u ++ [c]) = if c = '\n' then 1 else prefixCol u + 1 := by
  by_cases h : c = '\n' <;> simp [prefixCol, List.takeWhile, h]

theorem prefixPos_snoc_nl (u : List Char) :
    prefixPos (u ++ ['\n']) = ⟨prefixLine u + 1, 1⟩ := by
  simp [prefixPos, prefixLine_snoc, prefixCol_snoc]

theorem prefixPos_snoc_other (u : List Char) (c : Char) (h : ¬ c = '\n') :
    prefixPos (u ++ [c]) = ⟨prefixLine u, prefixCol u + 1⟩ := by
  simp [prefixPos, prefixLine_snoc, prefixCol_snoc, h]

/-- One more character strictly increases the running position. -/
theorem prefixPos_lt_snoc (u : List Char) (c : Char) :
    Pos.lt (prefixPos u) (prefixPos (u ++ [c])) := by
  by_cases h : c = '\n'
  · subst h
    rw [prefixPos_snoc_nl]
    left
    simp [prefixPos]
  · rw [prefixPos_snoc_other u c h]
    right
    simp [prefixPos]

/-- A non-empty extension strictly increases the running position. -/
theorem prefixPos_lt_append (u v : List Char) (hv : v ≠ []) :
    Pos.lt (prefixPos u) (prefixPos (u ++ v)) := by
  induction v generalizing u with
  | nil => exact absurd rfl hv
  | cons c v ih =>
    rcases Decidable.em (v = []) with h | h
    · subst h
      exact prefixPos_lt_snoc u c
    · have h1 := prefixPos_lt_snoc u c
      have h2 := ih (u ++ [c]) h
      rw [List.append_assoc] at h2
      exact Pos.lt_trans h1 (by simpa using h2)

/-- Running positions are strictly increasing along the file. -/
theorem prefixPos_strictMono (s : List Char) (i j : Nat) (hij : i < j)
    (hj : j ≤ s.length) :
    Pos.lt (prefixPos (s.take i)) (prefixPos (s.take j)) := by
  have hj' : j = i + (j - i) := by omega
  rw [hj', List.take_add]
  apply prefixPos_lt_append
  intro hnil
  have := congrArg List.length hnil
  simp [List.length_take, List.length_drop] at this
  omega

/-- Characterization of the scanning loop: starting from the state reached
after an already-consumed prefix `u` and base index `n`, the loop returns
`n + j` exactly when `j` is the first offset into `s` whose running position
(counted over `u ++ s.take j`) equals `pos`. -/
theorem find_index_by_pos_go_some_iff (pos : Pos) :
    ∀ (s u : List Char) (n k : Nat),
      find_index_by_pos_go s pos (prefixLine u) (prefixCol u) n = some k ↔
        ∃ j, j < s.length ∧ k = n + j ∧ prefixPos (u ++ s.take j) = pos ∧
          ∀ j' < j, prefixPos (u ++ s.take j') ≠ pos := by
  intro s
  induction s with
  | nil =>
    intro u n k
    simp [find_index_by_pos_go]
  | cons c rest ih =>
    intro u n k
    rw [find_index_by_pos_go]
    by_cases hhit : prefixLine u = pos.line ∧ prefixCol u = pos.col
    · have hpp : prefixPos u = pos := by
        cases pos
        simp [prefixPos]
        exact hhit
      rw [if_pos hhit]
      constructor
      · intro h
        refine ⟨0, by simp, by simpa using (Option.some.injEq _ _ ▸ h).symm, by simpa using hpp, by omega⟩
      · rintro ⟨j, hj, hk, hpj, hmin⟩
        have hj0 : j = 0 := by
          by_contra hne
          exact hmin 0 (by omega) (by simpa using hpp)
        subst hj0
        simp [hk]
    · have hpp : prefixPos u ≠ pos := by
        intro h
        cases pos
        apply hhit
        constructor
        · exact congrArg Pos.line h
        · exact congrArg Pos.col h
      rw [if_neg hhit]
      have trans_eq : find_index_by_pos_go rest pos
            (if c = '\n' then prefixLine u + 1 else prefixLine u)
            (if c = '\n' then 1 else prefixCol u + 1) (n + 1) =
          find_index_by_pos_go rest pos (prefixLine (u ++ [c])) (prefixCol (u ++ [c])) (n + 1) := by
        rw [prefixLine_snoc, prefixCol_snoc]
      have step : (if c = '\n'
            then find_index_by_pos_go rest pos (prefixLine u + 1) 1 (n + 1)
            else find_index_by_pos_go rest pos (prefixLine u) (prefixCol u + 1) (n + 1)) =
          find_index_by_pos_go rest pos (prefixLine (u ++ [c])) (prefixCol (u ++ [c])) (n + 1) := by
        by_cases hc : c = '\n' <;> simp [hc] at trans_eq ⊢ <;>
          simpa [hc] using trans_eq
      rw [step, ih (u ++ [c]) (n + 1) k]
      constructor
      · rintro ⟨j, hj, hk, hpj, hmin⟩
        refine ⟨j + 1, by simpa using hj, by omega, ?_, ?_⟩
        · simpa [List.append_assoc] using hpj
        · intro j' hj'
          cases j' with
          | zero => simpa using hpp
          | succ j'' =>
            have := hmin j'' (by omega)
            simpa [List.append_assoc] using this
      · rintro ⟨j, hj, hk, hpj, hmin⟩
        cases j with
        | zero => exact absurd (by simpa using hpj) hpp
        | succ j'' =>
          refine ⟨j'', by simpa using hj, by omega, ?_, ?_⟩
          · simpa [List.append_assoc] using hpj
          · intro j' hj'
            have := hmin (j' + 1) (by omega)
            simpa [List.append_assoc] using this

/-- `find_index_by_pos` returns `some k` exactly when `k` is the first offset
whose running position equals `pos`. -/
theorem find_some_iff (s : List Char) (pos : Pos) (k : Nat) :
    find_index_by_pos s pos = some k ↔
      k < s.length ∧ prefixPos (s.take k) = pos ∧
        ∀ j < k, prefixPos (s.take j) ≠ pos := by
  have h := find_index_by_pos_go_some_iff pos s [] 0 k
  rw [prefixLine_nil, prefixCol_nil] at h
  rw [find_index_by_pos, h]
  constructor
  · rintro ⟨j, hj, hk, hpj, hmin⟩
    have : k = j := by omega
    subst this
    exact ⟨hj, by simpa using hpj, fun j' hj' => by simpa using hmin j' hj'⟩
  · rintro ⟨hk, hp, hmin⟩
    exact ⟨k, hk, by omega, by simpa using hp, fun j' hj' => by simpa using hmin j' hj'⟩

/-- `find_index_by_pos` fails exactly when no offset of the text has running
position `pos`. -/
theorem find_none_iff (s : List Char) (pos : Pos) :
    find_index_by_pos s pos = none ↔
      ∀ j < s.length, prefixPos (s.take j) ≠ pos := by
  constructor
  · intro h j hj hpj
    by_cases hex : ∃ i, i < s.length ∧ prefixPos (s.take i) = pos
    · have hdec : ∀ i, Decidable (i < s.length ∧ prefixPos (s.take i) = pos) := by
        intro i
        exact inferInstance
      have hfind := Nat.find_spec hex
      have : find_index_by_pos s pos = some (Nat.find hex) := by
        rw [find_some_iff]
        refine ⟨hfind.1, hfind.2, ?_⟩
        intro j' hj' hpj'
        exact Nat.find_min hex hj' ⟨by omega, hpj'⟩
      rw [this] at h
      exact Option.noConfusion h
    · exact hex ⟨j, hj, hpj⟩
  · intro h
    cases hf : find_index_by_pos s pos with
    | none => rfl
    | some k =>
      rw [find_some_iff] at hf
      exact absurd hf.2.1 (h k hf.1)

theorem find_some_lt_length {s : List Char} {pos : Pos} {k : Nat}
    (h : find_index_by_pos s pos = some k) : k < s.length :=
  ((find_some_iff s pos k).mp h).1

theorem find_some_prefixPos {s : List Char} {pos : Pos} {k : Nat}
    (h : find_index_by_pos s pos = some k) : prefixPos (s.take k) = pos :=
  ((find_some_iff s pos k).mp h).2.1

/-- Resolution only reads the bytes strictly before the match and the byte at
the match, so it is stable under changes beyond a common prefix. -/
theorem find_stable {s t : List Char} {pos : Pos} {n k : Nat}
    (hst : s.take n = t.take n) (hkn : k ≤ n) (hkt : k < t.length)
    (h : find_index_by_pos s pos = some k) :
    find_index_by_pos t pos = some k := by
  rw [find_some_iff] at h ⊢
  obtain ⟨hkl, hp, hmin⟩ := h
  have htake : ∀ m ≤ n, s.take m = t.take m := by
    intro m hm
    have h1 : (s.take n).take m = s.take m := by
      rw [List.take_take]
      congr 1
      omega
    have h2 : (t.take n).take m = t.take m := by
      rw [List.take_take]
      congr 1
      omega
    rw [← h1, ← h2, hst]
  refine ⟨hkt, ?_, ?_⟩
  · rw [← htake k hkn]
    exact hp
  · intro j hj
    rw [← htake j (by omega)]
    exact hmin j hj

/-- C2: for every text and every Position `p` (1-indexed line and column)
that points at a real character of the text, resolving `p` to an offset with
`find_index_by_pos` and then re-deriving the line and column from that offset
by counting characters and newlines in the prefix of the text before the
offset reproduces `p` exactly. -/
theorem C2_resolve_round_trip (s : List Char) (p : Pos)
    (h : ∃ i, i < s.length ∧ prefixPos (s.take i) = p) :
    ∃ o, find_index_by_pos s p = some o ∧
      prefixLine (s.take o) = p.line ∧ prefixCol (s.take o) = p.col := by
  cases hf : find_index_by_pos s p with
  | none =>
    obtain ⟨i, hi, hpi⟩ := h
    exact absurd hpi ((find_none_iff s p).mp hf i hi)
  | some o =>
    have hp := find_some_prefixPos hf
    exact ⟨o, rfl, by rw [← hp]; rfl, by rw [← hp]; rfl⟩

theorem C2_witness :
    ∃ o, find_index_by_pos ['a', 'b', '\n', 'c'] ⟨2, 1⟩ = some o ∧
      prefixLine (List.take o ['a', 'b', '\n', 'c']) = (2 : Nat) ∧
      prefixCol (List.take o ['a', 'b', '\n', 'c']) = (1 : Nat) :=
  C2_resolve_round_trip ['a', 'b', '\n', 'c'] ⟨2, 1⟩ ⟨3, by decide, by decide⟩

/-- C6: for every text and Position `pos`, `find_index_by_pos` returns the
offset of the first character whose running position (tracked from `(1,1)`,
column incremented per character, line incremented and column reset on each
newline) equals `pos`, and it fails with the PositionNotFound error (modelled
as `none`) if and only if the end of the text is reached without any
character's running position matching `pos`. -/
theorem C6_resolver_first_match (s : List Char) (pos : Pos) :
    (∀ k, find_index_by_pos s pos = some k ↔
      k < s.length ∧ prefixPos (s.take k) = pos ∧
        ∀ j < k, prefixPos (s.take j) ≠ pos) ∧
    (find_index_by_pos s pos = none ↔
      ∀ j < s.length, prefixPos (s.take j) ≠ pos) :=
  ⟨fun k => find_some_iff s pos k, find_none_iff s pos⟩

theorem C6_witness :
    find_index_by_pos ['a', '\n', 'b'] ⟨2, 1⟩ = some 2 ∧
    find_index_by_pos ['a', '\n', 'b'] ⟨3, 1⟩ = none :=
  ⟨((C6_resolver_first_match ['a', '\n', 'b'] ⟨2, 1⟩).1 2).mpr
      ⟨by decide, by decide, by decide⟩,
    (C6_resolver_first_match ['a', '\n', 'b'] ⟨3, 1⟩).2.mpr (by decide)⟩

/-- C9: whenever `find_index_by_pos` succeeds the returned offset is strictly
less than the length of the text (it denotes an existing character), and the
position one past the final character (the running position of the whole
text, e.g. a zero-width insertion point at end of file) can never be
resolved: it always triggers the not-found failure.  Hence both slice bounds
used by the weaver always lie inside the buffer. -/
theorem C9_offsets_in_bounds (s : List Char) :
    (∀ pos k, find_index_by_pos s pos = some k → k < s.length) ∧
    find_index_by_pos s (prefixPos s) = none := by
  constructor
  · intro pos k h
    exact find_some_lt_length h
  · rw [find_none_iff]
    intro j hj hpj
    have := prefixPos_strictMono s j s.length hj (Nat.le_refl _)
    rw [List.take_length, hpj] at this
    exact Pos.lt_irrefl _ this

theorem C9_witness :
    1 < ([ 'a', 'b', 'c' ] : List Char).length ∧
    find_index_by_pos ['a', 'b', 'c'] (prefixPos ['a', 'b', 'c']) = none :=
  ⟨(C9_offsets_in_bounds ['a', 'b', 'c']).1 ⟨1, 2⟩ 1 (by decide),
    (C9_offsets_in_bounds ['a', 'b', 'c']).2⟩

/-- `struct PointCut` (config.rs): a condition expression (opaque to the
weaving engine) and an advice template. -/
structure PointCut where
  condition : List Char
  advice : List Char
deriving DecidableEq, Repr

/-- `struct Found` (make.rs): one match record.  The Rust field `end` is a
Lean keyword and is rendered `endP`. -/
structure Found where
  file : List Char
  src : List Char
  start : Pos
  endP : Pos
  args : List (List Char × List Char)
deriving DecidableEq, Repr

/-- The comparator of `impl Ord for Found` (make.rs lines 90-94): it compares
only the `start` positions, via the derived lexicographic `Ord` on `Pos`. -/
def Found.cmp (a b : Found) : Ordering :=
  Pos.cmp a.start b.start

/-- Model of `BinaryHeap::pop` on the heap of `Found` records: extracts a
maximal element under `Found.cmp` (the first one, among records whose `start`
ties) together with the remaining records. -/
def popMax : List Found → Option (Found × List Found)
  | [] => none
  | f :: rest =>
    match popMax rest with
    | none => some (f, [])
    | some (g, rest') =>
      if Found.cmp f g = Ordering.lt then some (g, f :: rest') else some (f, rest)

/-- Body of Rust `str::replace` specialised to our list model, with an
explicit fuel argument (`fuel` is always instantiated with the length of the
scanned text, which bounds the number of scanning steps): scan left to right;
at each position, if the (non-empty) pattern is a prefix, emit the
replacement and skip over the pattern, otherwise keep the character. -/
def replaceAllGo (pat rep : List Char) : Nat → List Char → List Char
  | _, [] => []
  | 0, s => s
  | fuel + 1, c :: rest =>
    if pat.isPrefixOf (c :: rest) then
      rep ++ replaceAllGo pat rep fuel (rest.drop (pat.length - 1))
    else
      c :: replaceAllGo pat rep fuel rest

/-- Rust `str::replace s pat rep`: replace every non-overlapping occurrence
of `pat` in `s`, scanning left to right.  An empty pattern matches at every
character boundary, including both ends. -/
def replaceAll (s pat rep : List Char) : List Char :=
  match pat with
  | [] => rep ++ s.flatMap (fun c => c :: rep)
  | _ :: _ => replaceAllGo pat rep s.length s

/-- The template-expansion passes of `insert_advice` (make.rs lines 206-210):
first, for each `(key, value)` pair of the captured-args mapping (in the
iteration order given by the list), replace every occurrence of the key in
the progressively updated advice by the value; then replace every occurrence
of the placeholder character `$` by the matched source text. -/
def expand_advice (advice : List Char) (args : List (List Char × List Char))
    (src : List Char) : List Char :=
  replaceAll (args.foldl (fun acc kv => replaceAll acc kv.1 kv.2) advice) ['$'] src

/-- Loop of `insert_advice` (make.rs lines 199-220) with fuel = number of
remaining records: pop the record with maximal start, resolve its start and
end positions in the current buffer (a resolution failure is the fatal
PositionNotFound panic, modelled as `none`), expand the advice template, and
splice it over the byte range `[from, to)` of the current buffer. -/
def insert_advice_go (pc : PointCut) : Nat → List Char → List Found → Option (List Char)
  | 0, src, founds => if founds.isEmpty then some src else none
  | fuel + 1, src, founds =>
    match popMax founds with
    | none => some src
    | some (f, rest) =>
      match find_index_by_pos src f.start, find_index_by_pos src f.endP with
      | some fro, some to_ =>
        insert_advice_go pc fuel
          (src.take fro ++ expand_advice pc.advice f.args f.src ++ src.drop to_) rest
      | _, _ => none

/-- `insert_advice` (make.rs): weave all records of one file into its text. -/
def insert_advice (src : List Char) (founds : List Found) (pc : PointCut) :
    Option (List Char) :=
  insert_advice_go pc founds.length src founds

theorem Nat_compare_lt {a b : Nat} : compare a b = Ordering.lt ↔ a < b := by
  rw [Nat.compare_eq_lt]

theorem Pos.cmp_eq_lt_iff (a b : Pos) : Pos.cmp a b = Ordering.lt ↔ Pos.lt a b := by
  unfold Pos.cmp Pos.lt
  rcases Nat.lt_trichotomy a.line b.line with h | h | h
  · rw [(Nat.compare_eq_lt).mpr h]
    simp [Ordering.then]
    omega
  · rw [(Nat.compare_eq_eq).mpr h]
    simp [Ordering.then, Nat.compare_eq_lt]
    omega
  · rw [(Nat.compare_eq_gt).mpr h]
    simp [Ordering.then]
    omega

theorem popMax_some_cases (l : List Found) (f : Found) (rest : List Found)
    (h : popMax l = some (f, rest)) :
    (∃ l1 l2, l = l1 ++ f :: l2 ∧ rest = l1 ++ l2) ∧
      ∀ g ∈ l, Found.cmp f g ≠ Ordering.lt := by
  induction l generalizing f rest with
  | nil => simp [popMax] at h
  | cons a l ih =>
    rw [popMax] at h
    split at h
    · rename_i hl
      have hl0 : l = [] := by
        cases l with
        | nil => rfl
        | cons b l' =>
          exfalso
          rw [popMax] at hl
          split at hl
          · simp at hl
          · split at hl <;> simp at hl
      subst hl0
      simp at h
      obtain ⟨hf, hr⟩ := h
      subst hf
      subst hr
      refine ⟨⟨[], [], by simp, by simp⟩, ?_⟩
      intro g hg
      simp at hg
      subst hg
      simp [Found.cmp, Pos.cmp_eq_lt_iff]
      exact Pos.lt_irrefl _
    · rename_i g rest' hl
      obtain ⟨⟨l1, l2, hdec, hrest⟩, hmax⟩ := ih g rest' hl
      by_cases hcmp : Found.cmp a g = Ordering.lt
      · rw [if_pos hcmp] at h
        simp at h
        obtain ⟨hf, hr⟩ := h
        subst hf
        subst hr
        refine ⟨⟨a :: l1, l2, by simp [hdec], by simp [hrest]⟩, ?_⟩
        intro x hx
        rcases List.mem_cons.mp hx with hx | hx
        · subst hx
          intro hlt
          simp only [Found.cmp, Pos.cmp_eq_lt_iff] at hlt hcmp
          exact Pos.lt_irrefl _ (Pos.lt_trans hlt hcmp)
        · exact hmax x hx
      · rw [if_neg hcmp] at h
        simp at h
        obtain ⟨hf, hr⟩ := h
        subst hf
        subst hr
        refine ⟨⟨[], l, by simp, by simp⟩, ?_⟩
        intro x hx
        rcases List.mem_cons.mp hx with hx | hx
        · subst hx
          simp [Found.cmp, Pos.cmp_eq_lt_iff]
          exact Pos.lt_irrefl _
        · intro hlt
          apply hcmp
          have hxg := hmax x hx
          simp only [Found.cmp, Ne, Pos.cmp_eq_lt_iff] at hlt hxg ⊢
          unfold Pos.lt at *
          omega

theorem popMax_length {l : List Found} {f : Found} {rest : List Found}
    (h : popMax l = some (f, rest)) : rest.length + 1 = l.length := by
  obtain ⟨⟨l1, l2, hdec, hrest⟩, _⟩ := popMax_some_cases l f rest h
  subst hdec
  subst hrest
  simp
  omega

/-- If every element of `l` compares strictly below `m`, popping `l ++ [m]`
yields `m` and leaves `l` unchanged. -/
theorem popMax_append_max (l : List Found) (m : Found)
    (h : ∀ g ∈ l, Found.cmp g m = Ordering.lt) :
    popMax (l ++ [m]) = some (m, l) := by
  induction l with
  | nil => simp [popMax]
  | cons a l ih =>
    have ih' := ih (fun g hg => h g (List.mem_cons_of_mem a hg))
    have ha := h a (List.mem_cons_self a l)
    rw [List.cons_append, popMax, ih']
    simp [ha]

theorem isPrefixOf_iff_take (p l : List Char) :
    p.isPrefixOf l = true ↔ l.take p.length = p := by
  induction p generalizing l with
  | nil => simp [List.isPrefixOf]
  | cons a p ih =>
    cases l with
    | nil => simp [List.isPrefixOf]
    | cons b l' =>
      simp only [List.isPrefixOf, Bool.and_eq_true, beq_iff_eq, ih, List.length_cons,
        List.take_succ_cons, List.cons.injEq]
      constructor
      · rintro ⟨h1, h2⟩
        exact ⟨h1.symm, h2⟩
      · rintro ⟨h1, h2⟩
        exact ⟨h1.symm, h2⟩

theorem isPrefixOf_self (l : List Char) : l.isPrefixOf l = true := by
  rw [isPrefixOf_iff_take, List.take_length]

/-- Whether `pat` occurs as a contiguous substring (at any position,
including the very end for the empty pattern). -/
def occursIn (pat : List Char) : List Char → Bool
  | [] => pat.isEmpty
  | c :: rest => pat.isPrefixOf (c :: rest) || occursIn pat rest

theorem replaceAllGo_nil (pat rep : List Char) (fuel : Nat) :
    replaceAllGo pat rep fuel [] = [] := by
  cases fuel <;> rfl

/-- C5: extracting from a per-file match collection as `insert_advice` does
with `pop` yields a record whose `start` Position is numerically greatest
(under the lexicographic line-then-column order) among all records in the
collection; the remainder is the collection with that record removed. -/
theorem C5_pop_yields_greatest_start (l : List Found) (f : Found)
    (rest : List Found) (h : popMax l = some (f, rest)) :
    f ∈ l ∧ (∃ l1 l2, l = l1 ++ f :: l2 ∧ rest = l1 ++ l2) ∧
      ∀ g ∈ l, g.start.line < f.start.line ∨
        (g.start.line = f.start.line ∧ g.start.col ≤ f.start.col) := by
  obtain ⟨⟨l1, l2, hdec, hrest⟩, hmax⟩ := popMax_some_cases l f rest h
  refine ⟨by rw [hdec]; simp, ⟨l1, l2, hdec, hrest⟩, ?_⟩
  intro g hg
  have hng := hmax g hg
  simp only [Found.cmp, Ne, Pos.cmp_eq_lt_iff] at hng
  unfold Pos.lt at hng
  omega

theorem C5_witness :
    (⟨['x'], [], ⟨2, 3⟩, ⟨2, 4⟩, []⟩ : Found) ∈
        [(⟨['x'], [], ⟨1, 5⟩, ⟨1, 6⟩, []⟩ : Found), ⟨['x'], [], ⟨2, 3⟩, ⟨2, 4⟩, []⟩] ∧
      (∃ l1 l2,
        [(⟨['x'], [], ⟨1, 5⟩, ⟨1, 6⟩, []⟩ : Found), ⟨['x'], [], ⟨2, 3⟩, ⟨2, 4⟩, []⟩] =
            l1 ++ (⟨['x'], [], ⟨2, 3⟩, ⟨2, 4⟩, []⟩ : Found) :: l2 ∧
          [(⟨['x'], [], ⟨1, 5⟩, ⟨1, 6⟩, []⟩ : Found)] = l1 ++ l2) ∧
      ∀ g ∈ [(⟨['x'], [], ⟨1, 5⟩, ⟨1, 6⟩, []⟩ : Found), ⟨['x'], [], ⟨2, 3⟩, ⟨2, 4⟩, []⟩],
        g.start.line < 2 ∨ (g.start.line = 2 ∧ g.start.col ≤ 3) :=
  C5_pop_yields_greatest_start _ _ _ (by decide)

/-- C4 counterexample: with template `"A"`, capturedArgs `{A ↦ "$"}` and
matchedText `"X"`, the value `"$"` inserted by the key substitution IS
re-expanded by the final placeholder pass, producing `"X"` instead of the
`"$"` that opaque-literal insertion would produce.  Inserted values are
therefore not opaque to later passes. -/
theorem C4_counterexample :
    expand_advice ['A'] [(['A'], ['$'])] ['X'] = ['X'] ∧
      (['X'] : List Char) ≠ ['$'] := by
  constructor
  · rfl
  · decide

/-- C4 amended: a single substitution pass is not recursive: it never
re-scans text it inserted itself.  Replacing `pat` by `rep` in the string
`pat` yields `rep` verbatim even when `rep` contains further occurrences of
`pat`.  (Later passes — subsequent keys and the final `$` pass — do re-scan
earlier-inserted values, as the counterexample shows.) -/
theorem C4_amended_no_self_rescan (pat rep : List Char) (h : pat ≠ []) :
    replaceAll pat pat rep = rep := by
  cases pat with
  | nil => exact absurd rfl h
  | cons p ps =>
    show replaceAllGo (p :: ps) rep (ps.length + 1) (p :: ps) = rep
    rw [replaceAllGo, if_pos (isPrefixOf_self (p :: ps))]
    simp [replaceAllGo_nil]

theorem C4_amended_witness :
    replaceAll ['A'] ['A'] ['A', 'A'] = ['A', 'A'] :=
  C4_amended_no_self_rescan ['A'] ['A', 'A'] (by decide)

/-- C8 counterexample: the keys `"ab"` and `"ba"` satisfy the claim's
hypothesis (neither is a substring of the other key nor of the other key's
value), yet on template `"aba"` the two iteration orders of the mapping
produce different expansions, so expansion is not deterministic under the
claimed condition. -/
theorem C8_counterexample :
    expand_advice ['a', 'b', 'a'] [(['a', 'b'], ['1']), (['b', 'a'], ['2'])] ['X'] ≠
        expand_advice ['a', 'b', 'a'] [(['b', 'a'], ['2']), (['a', 'b'], ['1'])] ['X'] ∧
      occursIn ['a', 'b'] ['b', 'a'] = false ∧ occursIn ['b', 'a'] ['a', 'b'] = false ∧
      occursIn ['a', 'b'] ['2'] = false ∧ occursIn ['b', 'a'] ['1'] = false := by
  decide

/-- C8 amended: the two concrete expansions of the claim do hold:
`expand("log(ARG1)", {ARG1 ↦ "x"}, matchedText "CALL")` with the `$`
placeholder unused yields `"log(x)"`, and `expand("before $ after", {},
matchedText "CALL")` yields `"before CALL after"`.  Determinism in the
iteration order, however, additionally requires that occurrences of distinct
keys cannot overlap in the template (the counterexample keys `"ab"`/`"ba"`
overlap in `"aba"`); it holds trivially when the mapping has at most one
key. -/
theorem C8_amended_examples :
    expand_advice "log(ARG1)".toList [("ARG1".toList, ['x'])] "CALL".toList =
        "log(x)".toList ∧
      expand_advice "before $ after".toList [] "CALL".toList =
        "before CALL after".toList := by
  constructor
  · rfl
  · rfl

/-- The spec-side description of a woven file: the matches, listed in
ascending order of their resolved `(startOffset, endOffset)` ranges, cut the
original text into untouched segments; each matched range `[s, e)` is
replaced by its expansion, everything else is kept verbatim.  `prev` is the
offset where the not-yet-emitted tail of the original begins. -/
def wovenFrom (pc : PointCut) (orig : List Char) :
    Nat → List (Found × Nat × Nat) → List Char
  | prev, [] => orig.drop prev
  | prev, (f, s, e) :: rest =>
    (orig.drop prev).take (s - prev) ++ expand_advice pc.advice f.args f.src ++
      wovenFrom pc orig e rest

theorem seg_take_eq {t t' : List Char} {n : Nat} (h : t.take n = t'.take n)
    {m k : Nat} (hmk : m + k ≤ n) :
    (t.drop m).take k = (t'.drop m).take k := by
  have e1 : (t.drop m).take k = (t.take (m + k)).drop m := by
    rw [List.drop_take]
    congr 1
    omega
  have e2 : (t'.drop m).take k = (t'.take (m + k)).drop m := by
    rw [List.drop_take]
    congr 1
    omega
  have e3 : t.take (m + k) = t'.take (m + k) := by
    have h1 : (t.take n).take (m + k) = t.take (m + k) := by
      rw [List.take_take]
      congr 1
      omega
    have h2 : (t'.take n).take (m + k) = t'.take (m + k) := by
      rw [List.take_take]
      congr 1
      omega
    rw [← h1, ← h2, h]
  rw [e1, e2, e3]

/-- Replacing the range `[s, e)` of the original by an expansion commutes
with the expected-output function for matches that lie entirely below `s`. -/
theorem wovenFrom_graft (pc : PointCut) (orig : List Char) (f : Found)
    (s e : Nat) (hse : s ≤ e) (hel : e ≤ orig.length) :
    ∀ (init : List (Found × Nat × Nat)) (prev : Nat), prev ≤ s →
      (∀ t ∈ init, t.2.1 ≤ s ∧ t.2.2 ≤ s) →
      wovenFrom pc (orig.take s ++ expand_advice pc.advice f.args f.src ++ orig.drop e)
          prev init =
        wovenFrom pc orig prev (init ++ [(f, s, e)]) := by
  have hsl : s ≤ orig.length := le_trans hse hel
  have htake : (orig.take s ++ expand_advice pc.advice f.args f.src ++ orig.drop e).take s =
      orig.take s := by
    rw [List.append_assoc, List.take_append_of_le_length (by simp; omega),
      List.take_take, min_self]
  intro init
  induction init with
  | nil =>
    intro prev hprev hall
    simp only [List.nil_append, wovenFrom]
    rw [List.drop_append_of_le_length (by simp; omega),
      List.drop_append_of_le_length (by simp; omega), List.drop_take]
  | cons hd init ih =>
    intro prev hprev hall
    obtain ⟨g, sg, eg⟩ := hd
    simp only [List.cons_append, wovenFrom]
    have hsg : sg ≤ s := (hall (g, sg, eg) (by simp)).1
    have heg : eg ≤ s := (hall (g, sg, eg) (by simp)).2
    congr 1
    · congr 1
      exact seg_take_eq htake (by omega)
    · exact ih eg heg (fun t ht => hall t (List.mem_cons_of_mem _ ht))

theorem insert_advice_frame_aux (pc : PointCut) :
    ∀ (ts : List (Found × Nat × Nat)) (orig : List Char),
      (∀ t ∈ ts, find_index_by_pos orig t.1.start = some t.2.1 ∧
          find_index_by_pos orig t.1.endP = some t.2.2 ∧ t.2.1 ≤ t.2.2) →
      ts.Pairwise (fun a b => a.2.1 < b.2.1 ∧ a.2.2 ≤ b.2.1) →
      insert_advice orig (ts.map (fun t => t.1)) pc =
        some (wovenFrom pc orig 0 ts) := by
  intro ts
  induction ts using List.reverseRecOn with
  | nil =>
    intro orig _ _
    simp [insert_advice, insert_advice_go, wovenFrom]
  | append_singleton init last ih =>
    intro orig hres hsep
    obtain ⟨f, s, e⟩ := last
    have hlast := hres (f, s, e) (by simp)
    obtain ⟨hfs, hfe, hse⟩ := hlast
    have hsl : s < orig.length := find_some_lt_length hfs
    have hel : e < orig.length := find_some_lt_length hfe
    rw [List.pairwise_append] at hsep
    obtain ⟨hsep_init, _, hsep_cross⟩ := hsep
    have hcross : ∀ t ∈ init, t.2.1 < s ∧ t.2.2 ≤ s := by
      intro t ht
      exact hsep_cross t ht (f, s, e) (by simp)
    have hpop : popMax (init.map (fun t => t.1) ++ [f]) =
        some (f, init.map (fun t => t.1)) := by
      apply popMax_append_max
      intro g hg
      rw [List.mem_map] at hg
      obtain ⟨t, ht, rfl⟩ := hg
      have hts := (hres t (List.mem_append_left _ ht)).1
      have h1 := find_some_prefixPos hts
      have h2 := find_some_prefixPos hfs
      rw [Found.cmp, Pos.cmp_eq_lt_iff, ← h1, ← h2]
      exact prefixPos_strictMono orig t.2.1 s (hcross t ht).1 (le_of_lt hsl)
    have hXdef : orig.take s ++ expand_advice pc.advice f.args f.src ++ orig.drop e =
        orig.take s ++ expand_advice pc.advice f.args f.src ++ orig.drop e := rfl
    have htakeeq : orig.take s =
        (orig.take s ++ expand_advice pc.advice f.args f.src ++ orig.drop e).take s := by
      rw [List.append_assoc, List.take_append_of_le_length (by simp; omega),
        List.take_take, min_self]
    have hlennew : s <
        (orig.take s ++ expand_advice pc.advice f.args f.src ++ orig.drop e).length := by
      simp
      omega
    have hres' : ∀ t ∈ init,
        find_index_by_pos
            (orig.take s ++ expand_advice pc.advice f.args f.src ++ orig.drop e)
            t.1.start = some t.2.1 ∧
          find_index_by_pos
            (orig.take s ++ expand_advice pc.advice f.args f.src ++ orig.drop e)
            t.1.endP = some t.2.2 ∧ t.2.1 ≤ t.2.2 := by
      intro t ht
      obtain ⟨h1, h2, h3⟩ := hres t (List.mem_append_left _ ht)
      obtain ⟨hc1, hc2⟩ := hcross t ht
      refine ⟨?_, ?_, h3⟩
      · exact find_stable htakeeq (by omega) (by omega) h1
      · exact find_stable htakeeq (by omega) (by omega) h2
    have hih := ih (orig.take s ++ expand_advice pc.advice f.args f.src ++ orig.drop e)
      hres' hsep_init
    have hgo : insert_advice_go pc (init.map (fun t => t.1)).length
        (orig.take s ++ expand_advice pc.advice f.args f.src ++ orig.drop e)
        (init.map (fun t => t.1)) =
        some (wovenFrom pc orig 0 (init ++ [(f, s, e)])) := by
      have : insert_advice_go pc (init.map (fun t => t.1)).length
          (orig.take s ++ expand_advice pc.advice f.args f.src ++ orig.drop e)
          (init.map (fun t => t.1)) =
          insert_advice
            (orig.take s ++ expand_advice pc.advice f.args f.src ++ orig.drop e)
            (init.map (fun t => t.1)) pc := rfl
      rw [this, hih]
      congr 1
      exact wovenFrom_graft pc orig f s e hse (le_of_lt hel) init 0 (by omega)
        (fun t ht => ⟨le_of_lt (hcross t ht).1, (hcross t ht).2⟩)
    have hfs' : find_index_by_pos orig f.start = some s := hfs
    have hfe' : find_index_by_pos orig f.endP = some e := hfe
    rw [List.map_append]
    show insert_advice orig (init.map (fun t => t.1) ++ [f]) pc =
      some (wovenFrom pc orig 0 (init ++ [(f, s, e)]))
    rw [insert_advice]
    have hlen : (init.map (fun t => t.1) ++ [f]).length =
        (init.map (fun t => t.1)).length + 1 := by simp
    rw [hlen]
    simp only [insert_advice_go, hpop, hfs', hfe']
    exact hgo

/-- C1: for every original file text and every set of non-overlapping
matches, all of whose start/end positions resolve in the original text to
offsets `s_i ≤ e_i` with `e_i ≤ s_(i+1)` (non-overlap, positions measured
against the original text), the weaver `insert_advice` — which processes the
matches in descending-start order — succeeds and produces exactly the
original text with each matched range `[s_i, e_i)` replaced by its
expansion: every byte strictly before the first match's start offset,
between consecutive matches, and strictly after the last match's end offset
is byte-identical to the original. -/
theorem C1_weaver_frame (pc : PointCut) (orig : List Char)
    (ts : List (Found × Nat × Nat))
    (hres : ∀ t ∈ ts, find_index_by_pos orig t.1.start = some t.2.1 ∧
        find_index_by_pos orig t.1.endP = some t.2.2 ∧ t.2.1 ≤ t.2.2)
    (hsep : ts.Pairwise (fun a b => a.2.1 < b.2.1 ∧ a.2.2 ≤ b.2.1)) :
    insert_advice orig (ts.map (fun t => t.1)) pc =
      some (wovenFrom pc orig 0 ts) :=
  insert_advice_frame_aux pc ts orig hres hsep

theorem C1_witness :
    insert_advice "abcdef\n".toList
        [⟨[], ['u'], ⟨1, 2⟩, ⟨1, 3⟩, []⟩, ⟨[], ['v'], ⟨1, 5⟩, ⟨1, 6⟩, []⟩]
        ⟨[], ['$', '!']⟩ =
      some (wovenFrom ⟨[], ['$', '!']⟩ "abcdef\n".toList 0
        [(⟨[], ['u'], ⟨1, 2⟩, ⟨1, 3⟩, []⟩, 1, 2), (⟨[], ['v'], ⟨1, 5⟩, ⟨1, 6⟩, []⟩, 4, 5)]) :=
  C1_weaver_frame ⟨[], ['$', '!']⟩ "abcdef\n".toList
    [(⟨[], ['u'], ⟨1, 2⟩, ⟨1, 3⟩, []⟩, 1, 2), (⟨[], ['v'], ⟨1, 5⟩, ⟨1, 6⟩, []⟩, 4, 5)]
    (by decide) (by decide)

/-- Abstract state of the three directories src_mgr.rs manipulates; `α` is
the (opaque) content of a directory tree, `none` means the directory does
not exist. -/
structure Fs (α : Type) where
  src : Option α
  srcSaved : Option α
  srcModified : Option α
deriving DecidableEq, Repr

/-- `backup_src` (src_mgr.rs): `remove("./src-saved").ok()` (failure
ignored), then `copy("./src", "./src-saved").unwrap()`.  `Sum.inl` is normal
return, `Sum.inr` carries the state at the point of an `unwrap` panic. -/
def backup_src {α : Type} (fs : Fs α) : Fs α ⊕ Fs α :=
  let fs1 : Fs α := { fs with srcSaved := none }
  match fs1.src with
  | none => Sum.inr fs1
  | some t => Sum.inl { fs1 with srcSaved := some t }

/-- `restore_src` (src_mgr.rs): `remove("./src-modified").ok()`, then
`move_dir("./src", "./src-modified").unwrap()`, then
`move_dir("./src-saved", "./src").unwrap()`. -/
def restore_src {α : Type} (fs : Fs α) : Fs α ⊕ Fs α :=
  let fs1 : Fs α := { fs with srcModified := none }
  match fs1.src with
  | none => Sum.inr fs1
  | some t =>
    let fs2 : Fs α := { fs1 with src := none, srcModified := some t }
    match fs2.srcSaved with
    | none => Sum.inr fs2
    | some sv => Sum.inl { fs2 with srcSaved := none, src := some sv }

/-- `main` (main.rs): `backup_src(); build_proj(&c); restore_src();` run in
sequence.  `build_proj`'s interaction with the file system is abstracted as
a transition on the state; `Sum.inr` is an abort (a Rust panic, e.g. the
PositionNotFound or artifact-parse panic inside build_proj), which ends the
process at once — the program installs no scope guard or panic handler, so
the remaining calls of `main` are skipped. -/
def mainRun {α : Type} (fs0 : Fs α) (build : Fs α → Fs α ⊕ Fs α) : Fs α ⊕ Fs α :=
  match backup_src fs0 with
  | Sum.inr s => Sum.inr s
  | Sum.inl fs1 =>
    match build fs1 with
    | Sum.inr s => Sum.inr s
    | Sum.inl fs2 => restore_src fs2

/-- C3 counterexample: a run whose `build_proj` aborts partway (here: after
having already woven the live tree from content `0` to content `1`) ends
with the live `./src` still holding the partially woven content `1`, not the
original `0`: `restore_src` is not executed on the abort path, so the
original tree is NOT restored on every exit path. -/
theorem C3_counterexample :
    mainRun (⟨some 0, none, none⟩ : Fs Nat)
        (fun s => Sum.inr { s with src := some 1 }) =
      Sum.inr ⟨some 1, some 0, none⟩ ∧
    (⟨some 1, some 0, none⟩ : Fs Nat).src ≠ (⟨some 0, none, none⟩ : Fs Nat).src := by
  constructor
  · rfl
  · decide

/-- C3 amended: the snapshot/restore pair guarantees restoration only on the
normal-completion path: if `build_proj` completes normally (leaving the
snapshot directory untouched and some woven tree in `./src`), the run ends
with the live `./src` byte-identical to the original and the woven output
preserved under `./src-modified`; but if `build_proj` aborts, the run ends
immediately in whatever state the abort left, with no restoration. -/
theorem C3_amended_restore_on_success {α : Type} (fs0 : Fs α)
    (build : Fs α → Fs α ⊕ Fs α) (orig : α) (h0 : fs0.src = some orig) :
    (∀ w m, build ⟨some orig, some orig, fs0.srcModified⟩ = Sum.inl ⟨some w, some orig, m⟩ →
      mainRun fs0 build = Sum.inl ⟨some orig, none, some w⟩) ∧
    (∀ a, build ⟨some orig, some orig, fs0.srcModified⟩ = Sum.inr a →
      mainRun fs0 build = Sum.inr a) := by
  have hb : backup_src fs0 = Sum.inl ⟨some orig, some orig, fs0.srcModified⟩ := by
    unfold backup_src
    rw [show ({ fs0 with srcSaved := none } : Fs α).src = some orig from h0]
  constructor
  · intro w m hbuild
    unfold mainRun
    rw [hb]
    simp only [hbuild]
    rfl
  · intro a hbuild
    unfold mainRun
    rw [hb]
    simp only [hbuild]

theorem C3_amended_witness :
    mainRun (⟨some 0, none, none⟩ : Fs Nat)
        (fun s => Sum.inl { s with src := some 7 }) =
      Sum.inl ⟨some 0, none, some 7⟩ :=
  (C3_amended_restore_on_success (⟨some 0, none, none⟩ : Fs Nat)
      (fun s => Sum.inl { s with src := some 7 }) 0 rfl).1 7 none rfl

/-- ASCII whitespace, the byte-level reading of the regex class `\s`. -/
def isWs (c : Char) : Bool :=
  c = ' ' || c = '\t' || c = '\n' || c = '\x0b' || c = '\x0c' || c = '\r'

/-- The regex class `\d`. -/
def isDigit (c : Char) : Bool :=
  '0' ≤ c && c ≤ '9'

/-- `str::parse::<usize>` on a digit string. -/
def digitsToNat (l : List Char) : Nat :=
  l.foldl (fun a c => 10 * a + (c.toNat - 48)) 0

/-- Consume a literal `:`. -/
def expectColon : List Char → Option (List Char)
  | ':' :: rest => some rest
  | _ => none

/-- Consume `(\d+)` (greedy; when followed by a non-digit in the regex, the
run is forced maximal anyway, so the greedy scan is faithful). -/
def expectDigits (s : List Char) : Option (Nat × List Char) :=
  if s.takeWhile isDigit = [] then none
  else some (digitsToNat (s.takeWhile isDigit), s.dropWhile isDigit)

/-- Consume `\s+` (greedy; forced maximal since a digit must follow). -/
def expectWs (s : List Char) : Option (List Char) :=
  if s.takeWhile isWs = [] then none else some (s.dropWhile isWs)

/-- Matcher for the suffix `:(\d+):(\d+):\s+(\d+):(\d+)` of the header regex
of `parse_found` (make.rs line 128), anchored at the start of `s` (right
after a `.rs` occurrence). -/
def matchTail (s : List Char) : Option (Nat × Nat × Nat × Nat) :=
  (expectColon s).bind fun s1 =>
  (expectDigits s1).bind fun p1 =>
  (expectColon p1.2).bind fun s2 =>
  (expectDigits s2).bind fun p2 =>
  (expectColon p2.2).bind fun s3 =>
  (expectWs s3).bind fun r3 =>
  (expectDigits r3).bind fun p3 =>
  (expectColon p3.2).bind fun s4 =>
  (expectDigits s4).bind fun p4 =>
  some (p1.1, p2.1, p3.1, p4.1)

/-- Backtracking matcher for the part of the header regex after the first
`[^\s]` character: either greedily consume one more `[^\s]+` character, or
match the literal `.rs` followed by `matchTail`.  Returns the rest of the
capture group `([^\s]+\.rs)` together with the four numbers. -/
def matchHdrAfterOne : List Char → Option (List Char × (Nat × Nat × Nat × Nat))
  | [] => none
  | c :: rest =>
    match (if isWs c then none
           else (matchHdrAfterOne rest).map (fun pr => (c :: pr.1, pr.2))) with
    | some r => some r
    | none =>
      match c :: rest with
      | '.' :: 'r' :: 's' :: tl =>
        (matchTail tl).map (fun nums => (['.', 'r', 's'], nums))
      | _ => none

/-- `Regex::captures_iter(s).next()` for the header regex
`([^\s]+\.rs):(\d+):(\d+):\s+(\d+):(\d+)`: try each start position left to
right; at a start position the first character must be `[^\s]`, after which
`matchHdrAfterOne` performs the (greedy) rest of the match.  Returns the
file-path capture and the four numeric captures. -/
def findHeader : List Char → Option (List Char × (Nat × Nat × Nat × Nat))
  | [] => none
  | c :: rest =>
    match (if isWs c then none
           else (matchHdrAfterOne rest).map (fun pr => (c :: pr.1, pr.2))) with
    | some r => some r
    | none => findHeader rest

/-- Split on newline characters; the inverse image of `intersperse '\n'`. -/
def splitOnNl : List Char → List (List Char)
  | [] => [[]]
  | c :: rest =>
    if c = '\n' then [] :: splitOnNl rest
    else
      match splitOnNl rest with
      | [] => [[c]]
      | l :: ls => (c :: l) :: ls

/-- Remove one trailing carriage return, as Rust `str::lines` does. -/
def stripCr (l : List Char) : List Char :=
  match l.getLast? with
  | some '\r' => l.dropLast
  | _ => l

/-- Rust `str::lines`: split on `'\n'` (a trailing newline produces no empty
final line), stripping one trailing `'\r'` from each line. -/
def linesOf (s : List Char) : List (List Char) :=
  match s with
  | [] => []
  | _ =>
    (if s.getLast? = some '\n' then splitOnNl s.dropLast else splitOnNl s).map stripCr

/-- Rust `str::trim_matches` with a character-set closure: strip matching
characters from both ends. -/
def trimMatches (p : Char → Bool) (l : List Char) : List Char :=
  ((l.dropWhile p).reverse.dropWhile p).reverse

/-- Rust `str::find(':')` followed by splitting into `l[0..split]` and
`l[split+1..]`. -/
def splitAtColon (l : List Char) : Option (List Char × List Char) :=
  match l.dropWhile (fun c => c != ':') with
  | [] => none
  | _ :: after => some (l.takeWhile (fun c => c != ':'), after)

/-- The `src:` extraction loop of `parse_found` (make.rs lines 145-154): on
the first line containing `"src:"`, take the text after the line's first
colon, trim spaces / double quotes / commas from both ends, and delete all
backslashes; stop at that line whether or not a colon was found. -/
def extract_src_go : List (List Char) → List Char
  | [] => []
  | l :: rest =>
    if occursIn ['s', 'r', 'c', ':'] l then
      match splitAtColon l with
      | some pa =>
        replaceAll (trimMatches (fun c => c = ' ' || c = '"' || c = ',') pa.2) ['\\'] []
      | none => []
    else extract_src_go rest

def extract_src (s : List Char) : List Char :=
  extract_src_go (linesOf s)

/-- `HashMap::insert`: update the binding of `k`, or append it. -/
def insertAssoc (m : List (List Char × List Char)) (k v : List Char) :
    List (List Char × List Char) :=
  match m with
  | [] => [(k, v)]
  | (k0, v0) :: rest =>
    if k0 = k then (k, v) :: rest else (k0, v0) :: insertAssoc rest k v

/-- The `args:` extraction loop of `parse_found` (make.rs lines 156-172):
lines containing `"args:"` switch the flag on and are themselves skipped;
afterwards each line with a colon contributes a key (before the first colon,
trimmed of spaces/quotes) and a value (after it, trimmed of
spaces/quotes/commas, backslashes deleted). -/
def extract_args_go :
    List (List Char) → Bool → List (List Char × List Char) → List (List Char × List Char)
  | [], _, m => m
  | l :: rest, argLine, m =>
    if occursIn ['a', 'r', 'g', 's', ':'] l then extract_args_go rest true m
    else if !argLine then extract_args_go rest argLine m
    else
      match splitAtColon l with
      | some pa =>
        extract_args_go rest argLine
          (insertAssoc m (trimMatches (fun c => c = ' ' || c = '"') pa.1)
            (replaceAll (trimMatches (fun c => c = ' ' || c = '"' || c = ',') pa.2) ['\\'] []))
      | none => extract_args_go rest argLine m

def extract_args (s : List Char) : List (List Char × List Char) :=
  extract_args_go (linesOf s) false []

/-- `parse_found` (make.rs lines 127-182): the failing
`.next().expect("Parse Found error!")` on the header regex is modelled as
`none`; on success the captures give the file and the two positions, and the
`src:`/`args:` loops fill in the rest. -/
def parse_found (s : List Char) : Option Found :=
  match findHeader s with
  | none => none
  | some (file, nums) =>
    some ⟨file, extract_src s, ⟨nums.1, nums.2.1⟩, ⟨nums.2.2.1, nums.2.2.2⟩, extract_args s⟩

/-- The header grammar actually accepted by `parse_found`'s regex: somewhere
in the block, a non-whitespace file path ending in `.rs`, then
`:<digits>:<digits>:<whitespace><digits>:<digits>`. -/
def headerGrammar (s : List Char) : Prop :=
  ∃ u x d1 d2 w d3 d4 v : List Char,
    s = u ++ x ++ ('.' :: 'r' :: 's' :: ':' ::
        (d1 ++ ':' :: (d2 ++ ':' :: (w ++ (d3 ++ ':' :: (d4 ++ v)))))) ∧
      x ≠ [] ∧ (∀ c ∈ x, isWs c = false) ∧
      d1 ≠ [] ∧ (∀ c ∈ d1, isDigit c = true) ∧
      d2 ≠ [] ∧ (∀ c ∈ d2, isDigit c = true) ∧
      w ≠ [] ∧ (∀ c ∈ w, isWs c = true) ∧
      d3 ≠ [] ∧ (∀ c ∈ d3, isDigit c = true) ∧
      d4 ≠ [] ∧ (∀ c ∈ d4, isDigit c = true)

theorem digit_not_ws {c : Char} (h : isDigit c = true) : isWs c = false := by
  cases hb : isWs c
  · rfl
  · exfalso
    unfold isWs at hb
    simp only [Bool.or_eq_true, decide_eq_true_eq] at hb
    rcases hb with ((((h1 | h1) | h1) | h1) | h1) | h1 <;> subst h1 <;>
      exact absurd h (by decide)

theorem takeWhile_eats {p : Char → Bool} :
    ∀ (a : List Char) (b : Char) (cs : List Char),
      (∀ x ∈ a, p x = true) → p b = false →
      (a ++ b :: cs).takeWhile p = a ∧ (a ++ b :: cs).dropWhile p = b :: cs := by
  intro a
  induction a with
  | nil =>
    intro b cs _ hb
    constructor
    · simp [List.takeWhile, hb]
    · simp [List.dropWhile, hb]
  | cons x a ih =>
    intro b cs ha hb
    have hx : p x = true := ha x (by simp)
    have hrec := ih b cs (fun y hy => ha y (by simp [hy])) hb
    constructor
    · simp only [List.cons_append, List.takeWhile_cons_of_pos hx, hrec.1]
    · simp only [List.cons_append, List.dropWhile_cons_of_pos hx, hrec.2]

theorem expectColon_sound {s r : List Char} (h : expectColon s = some r) :
    s = ':' :: r := by
  unfold expectColon at h
  split at h
  · simp at h
    rw [h]
  · simp at h

theorem expectDigits_sound {s : List Char} {p : Nat × List Char}
    (h : expectDigits s = some p) :
    ∃ d, s = d ++ p.2 ∧ d ≠ [] ∧ ∀ c ∈ d, isDigit c = true := by
  unfold expectDigits at h
  split at h
  · simp at h
  · rename_i hne
    simp only [Option.some.injEq] at h
    refine ⟨s.takeWhile isDigit, ?_, hne, fun c hc => List.mem_takeWhile_imp hc⟩
    rw [← h]
    exact (List.takeWhile_append_dropWhile _ _).symm

theorem expectWs_sound {s r : List Char} (h : expectWs s = some r) :
    ∃ w, s = w ++ r ∧ w ≠ [] ∧ ∀ c ∈ w, isWs c = true := by
  unfold expectWs at h
  split at h
  · simp at h
  · rename_i hne
    simp only [Option.some.injEq] at h
    refine ⟨s.takeWhile isWs, ?_, hne, fun c hc => List.mem_takeWhile_imp hc⟩
    rw [← h]
    exact (List.takeWhile_append_dropWhile _ _).symm

theorem expectDigits_eats (d : List Char) (b : Char) (cs : List Char)
    (hd : d ≠ []) (hdd : ∀ c ∈ d, isDigit c = true) (hb : isDigit b = false) :
    expectDigits (d ++ b :: cs) = some (digitsToNat d, b :: cs) := by
  have e := takeWhile_eats d b cs hdd hb
  unfold expectDigits
  rw [e.1, e.2, if_neg hd]

theorem expectWs_eats (w : List Char) (b : Char) (cs : List Char)
    (hw : w ≠ []) (hww : ∀ c ∈ w, isWs c = true) (hb : isWs b = false) :
    expectWs (w ++ b :: cs) = some (b :: cs) := by
  have e := takeWhile_eats w b cs hww hb
  unfold expectWs
  rw [e.1, e.2, if_neg hw]

theorem expectDigits_isSome_of_head (c : Char) (cs : List Char)
    (h : isDigit c = true) : (expectDigits (c :: cs)).isSome = true := by
  unfold expectDigits
  rw [List.takeWhile_cons_of_pos h]
  simp

theorem matchTail_sound {s : List Char} {nums : Nat × Nat × Nat × Nat}
    (h : matchTail s = some nums) :
    ∃ d1 d2 w d3 d4 v : List Char,
      s = ':' :: (d1 ++ ':' :: (d2 ++ ':' :: (w ++ (d3 ++ ':' :: (d4 ++ v))))) ∧
        d1 ≠ [] ∧ (∀ c ∈ d1, isDigit c = true) ∧
        d2 ≠ [] ∧ (∀ c ∈ d2, isDigit c = true) ∧
        w ≠ [] ∧ (∀ c ∈ w, isWs c = true) ∧
        d3 ≠ [] ∧ (∀ c ∈ d3, isDigit c = true) ∧
        d4 ≠ [] ∧ (∀ c ∈ d4, isDigit c = true) := by
  unfold matchTail at h
  simp only [Option.bind_eq_some] at h
  obtain ⟨s1, hs1, h⟩ := h
  obtain ⟨p1, hp1, h⟩ := h
  obtain ⟨s2, hs2, h⟩ := h
  obtain ⟨p2, hp2, h⟩ := h
  obtain ⟨s3, hs3, h⟩ := h
  obtain ⟨r3, hr3, h⟩ := h
  obtain ⟨p3, hp3, h⟩ := h
  obtain ⟨s4, hs4, h⟩ := h
  obtain ⟨p4, hp4, h⟩ := h
  obtain ⟨d1, e1, hd1, hdd1⟩ := expectDigits_sound hp1
  obtain ⟨d2, e2, hd2, hdd2⟩ := expectDigits_sound hp2
  obtain ⟨w, ew, hw, hww⟩ := expectWs_sound hr3
  obtain ⟨d3, e3, hd3, hdd3⟩ := expectDigits_sound hp3
  obtain ⟨d4, e4, hd4, hdd4⟩ := expectDigits_sound hp4
  refine ⟨d1, d2, w, d3, d4, p4.2, ?_, hd1, hdd1, hd2, hdd2, hw, hww, hd3, hdd3, hd4, hdd4⟩
  rw [expectColon_sound hs1, e1, expectColon_sound hs2, e2, expectColon_sound hs3, ew, e3,
    expectColon_sound hs4, e4]

theorem matchTail_complete (d1 d2 w d3 d4 v : List Char)
    (hd1 : d1 ≠ []) (hdd1 : ∀ c ∈ d1, isDigit c = true)
    (hd2 : d2 ≠ []) (hdd2 : ∀ c ∈ d2, isDigit c = true)
    (hw : w ≠ []) (hww : ∀ c ∈ w, isWs c = true)
    (hd3 : d3 ≠ []) (hdd3 : ∀ c ∈ d3, isDigit c = true)
    (hd4 : d4 ≠ []) (hdd4 : ∀ c ∈ d4, isDigit c = true) :
    (matchTail (':' :: (d1 ++ ':' ::
      (d2 ++ ':' :: (w ++ (d3 ++ ':' :: (d4 ++ v))))))).isSome = true := by
  obtain ⟨c3, d3', rfl⟩ := List.exists_cons_of_ne_nil hd3
  obtain ⟨c4, d4', rfl⟩ := List.exists_cons_of_ne_nil hd4
  have e1 := expectDigits_eats d1 ':'
    (d2 ++ ':' :: (w ++ ((c3 :: d3') ++ ':' :: ((c4 :: d4') ++ v)))) hd1 hdd1 (by decide)
  have e2 := expectDigits_eats d2 ':'
    (w ++ ((c3 :: d3') ++ ':' :: ((c4 :: d4') ++ v))) hd2 hdd2 (by decide)
  have e3 := expectWs_eats w c3 (d3' ++ ':' :: ((c4 :: d4') ++ v)) hw hww
    (digit_not_ws (hdd3 c3 (by simp)))
  have e4 := expectDigits_eats (c3 :: d3') ':' ((c4 :: d4') ++ v) (by simp) hdd3 (by decide)
  have e5 := expectDigits_isSome_of_head c4 (d4' ++ v) (hdd4 c4 (by simp))
  rw [Option.isSome_iff_exists] at e5
  obtain ⟨p4, hp4⟩ := e5
  unfold matchTail
  have hcol : ∀ t : List Char, expectColon (':' :: t) = some t := fun t => rfl
  simp only [List.cons_append, List.append_assoc] at e1 e2 e3 e4 hp4 ⊢
  simp only [hcol, Option.some_bind, e1, e2, e3, e4, hp4, Option.isSome_some]

theorem matchHdrAfterOne_sound {t : List Char} :
    ∀ {r : List Char × (Nat × Nat × Nat × Nat)}, matchHdrAfterOne t = some r →
      ∃ x tl, t = x ++ '.' :: 'r' :: 's' :: tl ∧ (∀ c ∈ x, isWs c = false) ∧
        (matchTail tl).isSome = true := by
  induction t with
  | nil =>
    intro r h
    simp [matchHdrAfterOne] at h
  | cons c rest ih =>
    intro r h
    rw [matchHdrAfterOne] at h
    split at h
    · rename_i r' heq
      split at heq
      · exact absurd heq (by simp)
      · rename_i hws
        rw [Option.map_eq_some'] at heq
        obtain ⟨pr, hpr, _⟩ := heq
        obtain ⟨x, tl, hx1, hx2, hx3⟩ := ih hpr
        refine ⟨c :: x, tl, by rw [hx1]; rfl, ?_, hx3⟩
        intro d hd
        rcases List.mem_cons.mp hd with hd | hd
        · subst hd
          simpa using hws
        · exact hx2 d hd
    · split at h
      · rename_i tl heq2
        rw [Option.map_eq_some'] at h
        obtain ⟨nums, hnums, _⟩ := h
        refine ⟨[], tl, ?_, by simp, by rw [hnums]; rfl⟩
        simpa using heq2
      · exact absurd h (by simp)

theorem matchHdrAfterOne_complete :
    ∀ (x tl : List Char), (∀ c ∈ x, isWs c = false) → (matchTail tl).isSome = true →
      (matchHdrAfterOne (x ++ '.' :: 'r' :: 's' :: tl)).isSome = true := by
  intro x
  induction x with
  | nil =>
    intro tl _ htl
    rw [Option.isSome_iff_exists] at htl
    obtain ⟨nums, hnums⟩ := htl
    have hdot : isWs '.' = false := by decide
    rw [List.nil_append, matchHdrAfterOne]
    cases hdeep : matchHdrAfterOne ('r' :: 's' :: tl) with
    | some pr => simp [hdot, hdeep]
    | none => simp [hdot, hdeep, hnums]
  | cons c x ih =>
    intro tl hx htl
    have hc : isWs c = false := hx c (by simp)
    have hrec := ih tl (fun d hd => hx d (by simp [hd])) htl
    rw [Option.isSome_iff_exists] at hrec
    obtain ⟨pr, hpr⟩ := hrec
    rw [List.cons_append, matchHdrAfterOne]
    simp [hc, hpr]

theorem findHeader_sound {s : List Char} :
    ∀ {r : List Char × (Nat × Nat × Nat × Nat)}, findHeader s = some r →
      headerGrammar s := by
  induction s with
  | nil =>
    intro r h
    simp [findHeader] at h
  | cons c rest ih =>
    intro r h
    rw [findHeader] at h
    split at h
    · rename_i r' heq
      split at heq
      · exact absurd heq (by simp)
      · rename_i hws
        rw [Option.map_eq_some'] at heq
        obtain ⟨pr, hpr, _⟩ := heq
        obtain ⟨x, tl, hx1, hx2, hx3⟩ := matchHdrAfterOne_sound hpr
        rw [Option.isSome_iff_exists] at hx3
        obtain ⟨nums, hnums⟩ := hx3
        obtain ⟨d1, d2, w, d3, d4, v, htl, hrest⟩ := matchTail_sound hnums
        refine ⟨[], c :: x, d1, d2, w, d3, d4, v, ?_, by simp, ?_, hrest⟩
        · rw [hx1, htl]
          simp
        · intro d hd
          rcases List.mem_cons.mp hd with hd | hd
          · subst hd
            simpa using hws
          · exact hx2 d hd
    · obtain ⟨u, x, d1, d2, w, d3, d4, v, hshape, hrest⟩ := ih h
      exact ⟨c :: u, x, d1, d2, w, d3, d4, v, by rw [hshape]; rfl, hrest⟩

theorem findHeader_anchored :
    ∀ (u : List Char) (c : Char) (rest : List Char), isWs c = false →
      (matchHdrAfterOne rest).isSome = true →
      (findHeader (u ++ c :: rest)).isSome = true := by
  intro u
  induction u with
  | nil =>
    intro c rest hc hm
    rw [Option.isSome_iff_exists] at hm
    obtain ⟨pr, hpr⟩ := hm
    rw [List.nil_append, findHeader]
    simp [hc, hpr]
  | cons d u ih =>
    intro c rest hc hm
    rw [List.cons_append, findHeader]
    cases hval : (if isWs d then none
        else (matchHdrAfterOne (u ++ c :: rest)).map (fun pr => (d :: pr.1, pr.2))) with
    | some r => simp [hval]
    | none =>
      simp only [hval]
      exact ih c rest hc hm

theorem findHeader_complete {s : List Char} (h : headerGrammar s) :
    (findHeader s).isSome = true := by
  obtain ⟨u, x, d1, d2, w, d3, d4, v, hshape, hxne, hxnws,
    hd1, hdd1, hd2, hdd2, hw, hww, hd3, hdd3, hd4, hdd4⟩ := h
  obtain ⟨cx, x', rfl⟩ := List.exists_cons_of_ne_nil hxne
  have htail := matchTail_complete d1 d2 w d3 d4 v hd1 hdd1 hd2 hdd2 hw hww hd3 hdd3 hd4 hdd4
  have hm := matchHdrAfterOne_complete x'
    (':' :: (d1 ++ ':' :: (d2 ++ ':' :: (w ++ (d3 ++ ':' :: (d4 ++ v))))))
    (fun d hd => hxnws d (by simp [hd])) htail
  have hanch := findHeader_anchored u cx
    (x' ++ '.' :: 'r' :: 's' :: ':' :: (d1 ++ ':' :: (d2 ++ ':' :: (w ++ (d3 ++ ':' :: (d4 ++ v))))))
    (hxnws cx (by simp)) hm
  rw [hshape]
  have hlists : u ++ (cx :: x') ++ ('.' :: 'r' :: 's' :: ':' ::
        (d1 ++ ':' :: (d2 ++ ':' :: (w ++ (d3 ++ ':' :: (d4 ++ v)))))) =
      u ++ cx :: (x' ++ '.' :: 'r' :: 's' :: ':' ::
        (d1 ++ ':' :: (d2 ++ ':' :: (w ++ (d3 ++ ':' :: (d4 ++ v)))))) := by
    simp
  rw [hlists]
  exact hanch

theorem parse_found_isSome_eq (s : List Char) :
    (parse_found s).isSome = (findHeader s).isSome := by
  cases h : findHeader s with
  | none => simp [parse_found, h]
  | some pr =>
    obtain ⟨file, nums⟩ := pr
    simp [parse_found, h]

/-- C7 counterexample: the block `"foo.txt:1:2: 3:4"` is an instance of the
claimed grammar `<filePath>:<line>:<col>: <endLine>:<endCol>` (with file
path `foo.txt`), yet `parse_found` fails on it — the regex additionally
requires the file path to be non-whitespace and to end in `.rs` — so parsing
does not succeed exactly on the claimed grammar. -/
theorem C7_counterexample :
    parse_found "foo.txt:1:2: 3:4".toList = none ∧
      "foo.txt:1:2: 3:4".toList =
        "foo.txt".toList ++ [':'] ++ ['1'] ++ [':'] ++ ['2'] ++ [':'] ++ [' '] ++
          ['3'] ++ [':'] ++ ['4'] := by
  constructor
  · rfl
  · rfl

/-- C7 amended: `parse_found` succeeds on a record block exactly when the
block contains a substring of the form
`<path>.rs:<digits>:<digits>:<whitespace><digits>:<digits>`, where `<path>`
is a non-empty run of non-whitespace characters (the captured file path is
the `<path>.rs` part, and the digit groups give the start and end
positions); any block with no such substring causes the fatal
ArtifactParseError panic, modelled as `none`. -/
theorem C7_header_grammar_iff (s : List Char) :
    (parse_found s).isSome = true ↔ headerGrammar s := by
  rw [parse_found_isSome_eq]
  constructor
  · intro h
    rw [Option.isSome_iff_exists] at h
    obtain ⟨r, hr⟩ := h
    exact findHeader_sound hr
  · exact findHeader_complete

theorem C7_witness : (parse_found "a.rs:10:2: 10:9".toList).isSome = true :=
  (C7_header_grammar_iff "a.rs:10:2: 10:9".toList).mpr
    ⟨[], ['a'], ['1', '0'], ['2'], [' '], ['1', '0'], ['9'], [],
      by decide, by decide, by decide, by decide, by decide, by decide, by decide,
      by decide, by decide, by decide, by decide, by decide, by decide⟩

/-- The record-start marker `"Found {"` used by `parse_aop_outputs`. -/
def marker : List Char := ['F', 'o', 'u', 'n', 'd', ' ', '\x7b']

/-- Rust `str::match_indices` for a non-empty pattern: non-overlapping
occurrences, scanned left to right; after a match the scan resumes past it.
Fueled by the length of the scanned text (each step consumes at least one
character). -/
def match_indices_go (pat : List Char) : Nat → List Char → Nat → List Nat
  | _, [], _ => []
  | 0, _ :: _, _ => []
  | fuel + 1, c :: rest, i =>
    if pat.isPrefixOf (c :: rest) then
      i :: match_indices_go pat fuel (rest.drop (pat.length - 1)) (i + pat.length)
    else match_indices_go pat fuel rest (i + 1)

/-- `s.match_indices(pat)` start offsets.  (For the empty pattern Rust
reports every character boundary; the engine only ever uses the non-empty
marker.) -/
def match_indices (s pat : List Char) : List Nat :=
  match pat with
  | [] => List.range (s.length + 1)
  | _ :: _ => match_indices_go pat s.length s 0

/-- `adjacent_pair_iterator`: consecutive pairs of a list. -/
def adjacentPairs (l : List Nat) : List (Nat × Nat) := l.zip l.tail

/-- `res.entry(f.file).or_insert(BinaryHeap::new()).push(f)`: group a record
under its file name, appending to that file's collection. -/
def insertFound (m : List (List Char × List Found)) (f : Found) :
    List (List Char × List Found) :=
  match m with
  | [] => [(f.file, [f])]
  | (k, fs) :: rest =>
    if k = f.file then (k, fs ++ [f]) :: rest else (k, fs) :: insertFound rest f

/-- `parse_aop_outputs` (make.rs lines 110-125): locate every occurrence of
the record marker, cut the text into segments from each occurrence to the
next (the last segment runs to end of text; everything before the first
occurrence belongs to no segment), parse each segment (a parse failure is
the fatal panic, modelled as `none`) and group the records by file. -/
def parse_aop_outputs (s : List Char) : Option (List (List Char × List Found)) :=
  let founds := match_indices s marker ++ [s.length]
  (adjacentPairs founds).foldlM
    (fun m ft => (parse_found ((s.take ft.2).drop ft.1)).map (insertFound m)) []

theorem match_indices_go_nil (pat : List Char) :
    ∀ (fuel : Nat) (t : List Char) (i : Nat),
      (∀ k, k < t.length → pat.isPrefixOf (t.drop k) = false) →
      match_indices_go pat fuel t i = [] := by
  intro fuel
  induction fuel with
  | zero =>
    intro t i h
    cases t <;> rfl
  | succ fuel ih =>
    intro t i h
    cases t with
    | nil => rfl
    | cons c rest =>
      have h0 : pat.isPrefixOf (c :: rest) = false := by
        have := h 0 (by simp)
        rwa [List.drop_zero] at this
      rw [match_indices_go, if_neg (by rw [h0]; decide)]
      exact ih rest (i + 1) (fun k hk => by
        have := h (k + 1) (by simpa using hk)
        simpa using this)

theorem match_indices_go_shift (pat : List Char) :
    ∀ (fuel : Nat) (t : List Char) (i : Nat),
      match_indices_go pat fuel t i =
        (match_indices_go pat fuel t 0).map (fun x => x + i) := by
  intro fuel
  induction fuel with
  | zero =>
    intro t i
    cases t <;> rfl
  | succ fuel ih =>
    intro t i
    cases t with
    | nil => rfl
    | cons c rest =>
      rw [match_indices_go, match_indices_go]
      by_cases hp : pat.isPrefixOf (c :: rest) = true
      · rw [if_pos hp, if_pos hp, List.map_cons]
        congr 1
        · omega
        · rw [ih (rest.drop (pat.length - 1)) (i + pat.length),
            ih (rest.drop (pat.length - 1)) (0 + pat.length), List.map_map]
          apply List.map_congr_left
          intro x _
          simp [Function.comp]
          omega
      · rw [if_neg hp, if_neg hp, ih rest (i + 1), ih rest (0 + 1), List.map_map]
        apply List.map_congr_left
        intro x _
        simp [Function.comp]
        omega

theorem match_indices_go_skip (pat : List Char) :
    ∀ (u s : List Char) (i : Nat),
      (∀ k, k < u.length → pat.isPrefixOf ((u ++ s).drop k) = false) →
      match_indices_go pat (u ++ s).length (u ++ s) i =
        match_indices_go pat s.length s (i + u.length) := by
  intro u
  induction u with
  | nil =>
    intro s i h
    simp
  | cons c u ih =>
    intro s i h
    rw [List.cons_append] at h ⊢
    have h0 : pat.isPrefixOf (c :: (u ++ s)) = false := by
      have := h 0 (by simp)
      rwa [List.drop_zero] at this
    rw [show (c :: (u ++ s)).length = (u ++ s).length + 1 from by simp]
    rw [match_indices_go, if_neg (by rw [h0]; decide)]
    rw [ih s (i + 1) (fun k hk => by
      have := h (k + 1) (by simpa using hk)
      simpa using this)]
    congr 1
    simp
    omega

theorem adjacentPairs_map_add (a : Nat) : ∀ (l : List Nat),
    adjacentPairs (l.map (fun x => x + a)) =
      (adjacentPairs l).map (fun p => (p.1 + a, p.2 + a))
  | [] => rfl
  | [_] => rfl
  | x :: y :: rest => by
    have ih := adjacentPairs_map_add a (y :: rest)
    unfold adjacentPairs at ih ⊢
    simp only [List.map_cons, List.tail_cons, List.zip_cons_cons] at ih ⊢
    rw [ih]

theorem foldlM_parse_congr
    (F G : List (List Char × List Found) → Nat × Nat → Option (List (List Char × List Found))) :
    ∀ (ps : List (Nat × Nat)), (∀ m p, p ∈ ps → F m p = G m p) →
      ∀ m, ps.foldlM F m = ps.foldlM G m := by
  intro ps
  induction ps with
  | nil =>
    intro _ m
    rfl
  | cons p ps ih =>
    intro h m
    show (F m p >>= fun m2 => ps.foldlM F m2) = (G m p >>= fun m2 => ps.foldlM G m2)
    rw [h m p (by simp)]
    cases G m p with
    | none => rfl
    | some m2 =>
      show ps.foldlM F m2 = ps.foldlM G m2
      exact ih (fun m3 q hq => h m3 q (by simp [hq])) m2

theorem parse_aop_outputs_no_marker {t : List Char}
    (h : ∀ k, k < t.length → marker.isPrefixOf (t.drop k) = false) :
    parse_aop_outputs t = some [] := by
  have hmi : match_indices t marker = [] := by
    show match_indices_go marker t.length t 0 = []
    exact match_indices_go_nil marker t.length t 0 h
  simp [parse_aop_outputs, hmi, adjacentPairs]

theorem parse_aop_outputs_skip_head (u s : List Char)
    (h : ∀ k, k < u.length → marker.isPrefixOf ((u ++ s).drop k) = false) :
    parse_aop_outputs (u ++ s) = parse_aop_outputs s := by
  have hmi : match_indices (u ++ s) marker =
      (match_indices s marker).map (fun x => x + u.length) := by
    show match_indices_go marker (u ++ s).length (u ++ s) 0 =
      (match_indices_go marker s.length s 0).map (fun x => x + u.length)
    rw [match_indices_go_skip marker u s 0 h,
      match_indices_go_shift marker s.length s (0 + u.length)]
    simp
  have hfounds : match_indices (u ++ s) marker ++ [(u ++ s).length] =
      (match_indices s marker ++ [s.length]).map (fun x => x + u.length) := by
    rw [hmi, List.map_append]
    simp [Nat.add_comm]
  simp only [parse_aop_outputs]
  rw [hfounds, adjacentPairs_map_add, List.foldlM_map]
  apply foldlM_parse_congr
  intro m p hp
  have hseg : ((u ++ s).take (p.2 + u.length)).drop (p.1 + u.length) =
      (s.take p.2).drop p.1 := by
    rw [show p.2 + u.length = u.length + p.2 from by omega,
      show p.1 + u.length = u.length + p.1 from by omega,
      List.take_append, List.drop_append]
  show (parse_found (((u ++ s).take (p.2 + u.length)).drop (p.1 + u.length))).map
      (insertFound m) = _
  rw [hseg]

/-- C10: `parse_aop_outputs` silently discards all artifact text preceding
the first occurrence of the record-start marker `"Found {"`: prepending any
text in which no occurrence of the marker starts does not change the result.
In particular, an artifact text containing no occurrence of the marker at
all parses to the empty mapping, over which `build_proj`'s per-file loop
does nothing, so no file is read, woven, or written for that artifact. -/
theorem C10_marker_prefix_discard (u s t : List Char) :
    ((∀ k, k < u.length → marker.isPrefixOf ((u ++ s).drop k) = false) →
      parse_aop_outputs (u ++ s) = parse_aop_outputs s) ∧
    ((∀ k, k < t.length → marker.isPrefixOf (t.drop k) = false) →
      parse_aop_outputs t = some []) :=
  ⟨parse_aop_outputs_skip_head u s, parse_aop_outputs_no_marker⟩

theorem C10_witness :
    parse_aop_outputs (['z', 'z'] ++ "Found ".toList) =
        parse_aop_outputs "Found ".toList ∧
      parse_aop_outputs "hello".toList = some [] :=
  ⟨(C10_marker_prefix_discard ['z', 'z'] "Found ".toList "hello".toList).1 (by decide),
    (C10_marker_prefix_discard ['z', 'z'] "Found ".toList "hello".toList).2 (by decide)⟩

end CargoAspect
